import Mathlib

/-!
Shallow embedding of the Superstore normalization pipeline
(`normalize.py`, function `normalize_superstore_data`).

The pipeline reads a flat CSV of order line items and decomposes it into
seven tables: customers, locations, categories, sub_categories, products,
orders, order_details.  We model one input row as a `RawRecord`, the
pandas operations as list transformations, and each output table as a list
of typed rows:

* `drop_duplicates(subset=[k], keep='first')` is `dedupByKey k`
  (keep the first row for each key value, preserving row order);
* `Series.unique()` is `uniqueList` (distinct values in first-appearance
  order);
* `pd.merge(left, right, on=k)` (inner join, `sort=False`) is
  `innerMerge`: each left row, in left order, paired with every matching
  right row in right order;
* `groupby(keys, sort=True).agg(...)` is: distinct key tuples sorted
  lexicographically, each mapped to the aggregates over its group.

Measures are embedded as exact rationals (`Sales`, `Discount`, `Profit` as
`ℚ`, `Quantity` as `ℤ`); identifiers and other attributes are strings.
-/

/-- One row of the input CSV (`Sample - Superstore.csv`): a single
(order, product) line item with all the denormalized attributes used by
`normalize_superstore_data`. -/
structure RawRecord where
  customerID : String
  customerName : String
  segment : String
  postalCode : String
  city : String
  state : String
  region : String
  category : String
  subCategory : String
  productID : String
  productName : String
  orderID : String
  orderDate : String
  shipDate : String
  shipMode : String
  sales : ℚ
  quantity : ℤ
  discount : ℚ
  profit : ℚ
  deriving DecidableEq, Repr

/-- Row of `customers.csv`: CustomerID (natural key), CustomerName, Segment. -/
structure CustomerRow where
  customerID : String
  customerName : String
  segment : String
  deriving DecidableEq, Repr

/-- Row of `locations.csv`: PostalCode (natural key), City, State, Region. -/
structure LocationRow where
  postalCode : String
  city : String
  state : String
  region : String
  deriving DecidableEq, Repr

/-- Row of `categories.csv`: CategoryID (surrogate key), CategoryName. -/
structure CategoryRow where
  categoryID : ℕ
  categoryName : String
  deriving DecidableEq, Repr

/-- Row of `sub_categories.csv`: SubCategoryID (surrogate key),
SubCategoryName, CategoryID (foreign key into categories). -/
structure SubCategoryRow where
  subCategoryID : ℕ
  subCategoryName : String
  categoryID : ℕ
  deriving DecidableEq, Repr

/-- Row of `products.csv`: ProductID (natural key), ProductName,
SubCategoryID (foreign key into sub_categories). -/
structure ProductRow where
  productID : String
  productName : String
  subCategoryID : ℕ
  deriving DecidableEq, Repr

/-- Row of `orders.csv`: OrderID (natural key), dates, ship mode and the
foreign keys CustomerID, PostalCode. -/
structure OrderRow where
  orderID : String
  orderDate : String
  shipDate : String
  shipMode : String
  customerID : String
  postalCode : String
  deriving DecidableEq, Repr

/-- Row of `order_details.csv`: composite key (OrderID, ProductID) and the
aggregated measures. -/
structure OrderDetailRow where
  orderID : String
  productID : String
  sales : ℚ
  quantity : ℤ
  discount : ℚ
  profit : ℚ
  deriving DecidableEq, Repr

/-- Linear scan behind `drop_duplicates(keep='first')`: `seen` is the set
of key values already emitted; a row is kept exactly when its key value
has not occurred before. -/
def dedupByKeyAux {α κ : Type} [DecidableEq κ] (key : α → κ) :
    List κ → List α → List α
  | _, [] => []
  | seen, x :: xs =>
      if key x ∈ seen then dedupByKeyAux key seen xs
      else x :: dedupByKeyAux key (key x :: seen) xs

/-- `DataFrame.drop_duplicates(subset=[key], keep='first')`: keep, in
order, each row whose key value has not occurred in an earlier row. -/
def dedupByKey {α κ : Type} [DecidableEq κ] (key : α → κ) (l : List α) :
    List α :=
  dedupByKeyAux key [] l

/-- `Series.unique()` / `drop_duplicates()` on whole rows: distinct values
in order of first appearance. -/
def uniqueList {α : Type} [DecidableEq α] (l : List α) : List α :=
  dedupByKey id l

/-- `pd.merge(left, right, on=key)` with the default inner join and
`sort=False`: every left row, in left order, paired with each right row
whose key matches, in right order.  Left rows with no match are dropped;
left rows with several matches are repeated. -/
def innerMerge {α β κ : Type} [DecidableEq κ] (kl : α → κ) (kr : β → κ)
    (right : List β) : List α → List (α × β)
  | [] => []
  | a :: as =>
      ((right.filter fun b => kr b = kl a).map fun b => (a, b))
        ++ innerMerge kl kr right as

/-- Lexicographic order on (OrderID, ProductID) pairs: the order in which
`groupby(['Order ID', 'Product ID'], sort=True)` emits its groups. -/
def pairLE (a b : String × String) : Prop :=
  a.1 < b.1 ∨ (a.1 = b.1 ∧ a.2 ≤ b.2)

/-- Strict version of `pairLE`. -/
def pairLT (a b : String × String) : Prop :=
  a.1 < b.1 ∨ (a.1 = b.1 ∧ a.2 < b.2)

instance : DecidableRel pairLE := fun _ _ =>
  inferInstanceAs (Decidable (_ ∨ _ ∧ _))

instance : DecidableRel pairLT := fun _ _ =>
  inferInstanceAs (Decidable (_ ∨ _ ∧ _))

instance : IsTotal (String × String) pairLE where
  total a b := by
    rcases lt_trichotomy a.1 b.1 with h | h | h
    · exact Or.inl (Or.inl h)
    · rcases le_total a.2 b.2 with h2 | h2
      · exact Or.inl (Or.inr ⟨h, h2⟩)
      · exact Or.inr (Or.inr ⟨h.symm, h2⟩)
    · exact Or.inr (Or.inl h)

instance : IsTrans (String × String) pairLE where
  trans a b c hab hbc := by
    rcases hab with h1 | ⟨e1, h1⟩
    · rcases hbc with h2 | ⟨e2, _⟩
      · exact Or.inl (h1.trans h2)
      · exact Or.inl (e2 ▸ h1)
    · rcases hbc with h2 | ⟨e2, h2⟩
      · exact Or.inl (e1 ▸ h2)
      · exact Or.inr ⟨e1.trans e2, h1.trans h2⟩

/-- The customers table: project (CustomerID, CustomerName, Segment) and
deduplicate on CustomerID, keeping the first occurrence
(`normalize.py` line 35). -/
def customersTable (l : List RawRecord) : List CustomerRow :=
  (dedupByKey (·.customerID) l).map fun r =>
    ⟨r.customerID, r.customerName, r.segment⟩

/-- The locations table: project (PostalCode, City, State, Region) and
deduplicate on PostalCode, keeping the first occurrence
(`normalize.py` line 43). -/
def locationsTable (l : List RawRecord) : List LocationRow :=
  (dedupByKey (·.postalCode) l).map fun r =>
    ⟨r.postalCode, r.city, r.state, r.region⟩

/-- The categories table: distinct category names in first-appearance
order, with CategoryID = dataframe index + 1 (`normalize.py` lines 51-53). -/
def categoriesTable (l : List RawRecord) : List CategoryRow :=
  (uniqueList (l.map (·.category))).enum.map fun p => ⟨p.1 + 1, p.2⟩

/-- The distinct (CategoryName, SubCategoryName) pairs in first-appearance
order (`normalize.py` line 60). -/
def subCategoryPairs (l : List RawRecord) : List (String × String) :=
  uniqueList (l.map fun r => (r.category, r.subCategory))

/-- The sub_categories table: the distinct pairs merged with the
categories table on CategoryName, then SubCategoryID = index + 1 over the
merged frame (`normalize.py` lines 60-66). -/
def subCategoriesTable (l : List RawRecord) : List SubCategoryRow :=
  (innerMerge Prod.fst (·.categoryName) (categoriesTable l)
      (subCategoryPairs l)).enum.map
    fun p => ⟨p.1 + 1, p.2.1.2, p.2.2.categoryID⟩

/-- The products table before the sub-category join: project
(ProductID, ProductName, SubCategoryName) and deduplicate on ProductID
(`normalize.py` line 73). -/
def productsDedup (l : List RawRecord) : List RawRecord :=
  dedupByKey (·.productID) l

/-- The products table: the deduplicated products merged with the
sub_categories table on SubCategoryName (`normalize.py` lines 73-78). -/
def productsTable (l : List RawRecord) : List ProductRow :=
  (innerMerge (·.subCategory) (·.subCategoryName) (subCategoriesTable l)
      (productsDedup l)).map
    fun p => ⟨p.1.productID, p.1.productName, p.2.subCategoryID⟩

/-- The orders table: project the order attributes and deduplicate on
OrderID, keeping the first occurrence (`normalize.py` line 85). -/
def ordersTable (l : List RawRecord) : List OrderRow :=
  (dedupByKey (·.orderID) l).map fun r =>
    ⟨r.orderID, r.orderDate, r.shipDate, r.shipMode, r.customerID,
      r.postalCode⟩

/-- The group keys of `groupby(['Order ID', 'Product ID'], sort=True)`:
the distinct (OrderID, ProductID) pairs, sorted lexicographically. -/
def orderDetailKeys (l : List RawRecord) : List (String × String) :=
  List.insertionSort pairLE (uniqueList (l.map fun r => (r.orderID, r.productID)))

/-- The group of input rows with a given (OrderID, ProductID) key. -/
def orderDetailGroup (l : List RawRecord) (k : String × String) :
    List RawRecord :=
  l.filter fun r => r.orderID = k.1 ∧ r.productID = k.2

/-- The order_details table: one row per distinct (OrderID, ProductID)
pair, in sorted key order, with Sales/Quantity/Profit summed and Discount
averaged over the group (`normalize.py` lines 97-103). -/
def orderDetailsTable (l : List RawRecord) : List OrderDetailRow :=
  (orderDetailKeys l).map fun k =>
    ⟨k.1, k.2, ((orderDetailGroup l k).map (·.sales)).sum,
      ((orderDetailGroup l k).map (·.quantity)).sum,
      ((orderDetailGroup l k).map (·.discount)).sum
        / ((orderDetailGroup l k).length : ℚ),
      ((orderDetailGroup l k).map (·.profit)).sum⟩

/-- All seven output tables of one run. -/
structure NormalizedOutput where
  customers : List CustomerRow
  locations : List LocationRow
  categories : List CategoryRow
  subCategories : List SubCategoryRow
  products : List ProductRow
  orders : List OrderRow
  orderDetails : List OrderDetailRow
  deriving DecidableEq, Repr

/-- The in-memory normalization of a loaded input (`normalize.py`
lines 29-105): seven tables derived from the one input snapshot. -/
def normalizePipeline (l : List RawRecord) : NormalizedOutput :=
  ⟨customersTable l, locationsTable l, categoriesTable l,
    subCategoriesTable l, productsTable l, ordersTable l,
    orderDetailsTable l⟩

/-- The whole run (`normalize.py` lines 13-105): loading the CSV either
fails (`FileNotFoundError` or any read error, lines 16-21), in which case
the function returns before any table is written — modelled as `none` —
or succeeds with a record list, and then all seven tables are computed and
written. -/
def runNormalize (input : Except String (List RawRecord)) :
    Option NormalizedOutput :=
  match input with
  | .error _ => none
  | .ok l => some (normalizePipeline l)

/-- A convenience constructor for input records: only the fields that the
claims vary are parameters, the rest are fixed filler values. -/
def mkRec (cid pc cat sub pid oid : String) (s : ℚ) (q : ℤ) (d : ℚ)
    (p : ℚ) : RawRecord :=
  ⟨cid, "Name", "Consumer", pc, "City", "State", "Region", cat, sub, pid,
    "ProdName", oid, "2024-01-01", "2024-01-03", "Standard", s, q, d, p⟩

/-- The input of the spec's surrogate-key example: three line items with
category/sub-category pairs (Furniture, Chairs), (Office Supplies, Paper),
(Furniture, Tables), in that order. -/
def hierarchyExampleInput : List RawRecord :=
  [mkRec "C1" "Z1" "Furniture" "Chairs" "P1" "O1" 1 1 0 0,
   mkRec "C2" "Z2" "Office Supplies" "Paper" "P2" "O2" 1 1 0 0,
   mkRec "C3" "Z3" "Furniture" "Tables" "P3" "O3" 1 1 0 0]

/-- The input of the spec's aggregation example: two line items for
(OrderID "O1", ProductID "P1") with Sales 10/20, Quantity 1/2,
Discount 0.1/0.3, Profit 2/4. -/
def aggExampleInput : List RawRecord :=
  [mkRec "C1" "Z1" "Furniture" "Chairs" "P1" "O1" 10 1 (1/10) 2,
   mkRec "C1" "Z1" "Furniture" "Chairs" "P1" "O1" 20 2 (3/10) 4]

/-- An input whose sub-category name "S" appears under two different
category names: the sub_categories table then contains two rows named "S",
and the products merge duplicates every product of sub-category "S". -/
def ambiguousHierarchyInput : List RawRecord :=
  [mkRec "C1" "Z1" "A" "S" "P1" "O1" 1 1 0 0,
   mkRec "C2" "Z2" "B" "S" "P2" "O2" 1 1 0 0]

/-! ### Properties of the first-wins deduplication -/

theorem dedupByKeyAux_sublist {α κ : Type} [DecidableEq κ] (key : α → κ) :
    ∀ (seen : List κ) (l : List α), List.Sublist (dedupByKeyAux key seen l) l
  | _, [] => List.Sublist.refl []
  | seen, x :: xs => by
      rw [dedupByKeyAux]
      by_cases h : key x ∈ seen
      · simp only [if_pos h]
        exact (dedupByKeyAux_sublist key seen xs).cons x
      · simp only [if_neg h]
        exact (dedupByKeyAux_sublist key (key x :: seen) xs).cons₂ x

theorem dedupByKey_sublist {α κ : Type} [DecidableEq κ] (key : α → κ)
    (l : List α) : List.Sublist (dedupByKey key l) l :=
  dedupByKeyAux_sublist key [] l

theorem mem_of_mem_dedupByKey {α κ : Type} [DecidableEq κ] {key : α → κ}
    {l : List α} {a : α} (h : a ∈ dedupByKey key l) : a ∈ l :=
  (dedupByKey_sublist key l).mem h

theorem key_not_mem_seen_of_mem_dedupByKeyAux {α κ : Type} [DecidableEq κ]
    {key : α → κ} :
    ∀ {seen : List κ} {l : List α} {a : α},
      a ∈ dedupByKeyAux key seen l → key a ∉ seen
  | _, [], _, h => absurd h (List.not_mem_nil _)
  | seen, x :: xs, a, h => by
      rw [dedupByKeyAux] at h
      by_cases hx : key x ∈ seen
      · rw [if_pos hx] at h
        exact key_not_mem_seen_of_mem_dedupByKeyAux h
      · rw [if_neg hx] at h
        rcases List.mem_cons.mp h with rfl | h
        · exact hx
        · intro hs
          exact key_not_mem_seen_of_mem_dedupByKeyAux h
            (List.mem_cons_of_mem _ hs)

theorem dedupByKeyAux_pairwise {α κ : Type} [DecidableEq κ] (key : α → κ) :
    ∀ (seen : List κ) (l : List α),
      (dedupByKeyAux key seen l).Pairwise fun a b => key a ≠ key b
  | _, [] => List.Pairwise.nil
  | seen, x :: xs => by
      rw [dedupByKeyAux]
      by_cases hx : key x ∈ seen
      · rw [if_pos hx]
        exact dedupByKeyAux_pairwise key seen xs
      · rw [if_neg hx]
        refine List.Pairwise.cons ?_ (dedupByKeyAux_pairwise key _ xs)
        intro b hb
        have := key_not_mem_seen_of_mem_dedupByKeyAux hb
        intro he
        exact this (he ▸ List.mem_cons_self _ _)

theorem dedupByKey_pairwise_key {α κ : Type} [DecidableEq κ] (key : α → κ)
    (l : List α) :
    (dedupByKey key l).Pairwise fun a b => key a ≠ key b :=
  dedupByKeyAux_pairwise key [] l

theorem exists_mem_dedupByKeyAux {α κ : Type} [DecidableEq κ] {key : α → κ} :
    ∀ {seen : List κ} {l : List α} {x : α},
      x ∈ l → key x ∉ seen → ∃ y ∈ dedupByKeyAux key seen l, key y = key x
  | _, [], _, hx, _ => absurd hx (List.not_mem_nil _)
  | seen, x0 :: xs, x, hx, hs => by
      rw [dedupByKeyAux]
      by_cases h0 : key x0 ∈ seen
      · rw [if_pos h0]
        rcases List.mem_cons.mp hx with rfl | hx
        · exact absurd h0 hs
        · exact exists_mem_dedupByKeyAux hx hs
      · rw [if_neg h0]
        by_cases he : key x = key x0
        · exact ⟨x0, List.mem_cons_self _ _, he.symm⟩
        · rcases List.mem_cons.mp hx with rfl | hx
          · exact absurd rfl he
          · have hs' : key x ∉ key x0 :: seen := by
              intro h
              rcases List.mem_cons.mp h with h | h
              · exact he h
              · exact hs h
            obtain ⟨y, hy, hk⟩ := exists_mem_dedupByKeyAux hx hs'
            exact ⟨y, List.mem_cons_of_mem _ hy, hk⟩

theorem exists_mem_dedupByKey {α κ : Type} [DecidableEq κ] (key : α → κ)
    {l : List α} {x : α} (hx : x ∈ l) :
    ∃ y ∈ dedupByKey key l, key y = key x :=
  exists_mem_dedupByKeyAux hx (List.not_mem_nil _)

theorem mem_uniqueList {α : Type} [DecidableEq α] {l : List α} {a : α} :
    a ∈ uniqueList l ↔ a ∈ l := by
  constructor
  · exact fun h => mem_of_mem_dedupByKey h
  · intro h
    obtain ⟨y, hy, hk⟩ := exists_mem_dedupByKey id h
    have hya : y = a := hk
    exact hya ▸ hy

theorem uniqueList_nodup {α : Type} [DecidableEq α] (l : List α) :
    (uniqueList l).Nodup :=
  (dedupByKey_pairwise_key id l).imp fun h => h

theorem uniqueList_toFinset {α : Type} [DecidableEq α] (l : List α) :
    (uniqueList l).toFinset = l.toFinset := by
  ext a
  simp [List.mem_toFinset, mem_uniqueList]

theorem uniqueList_length {α : Type} [DecidableEq α] (l : List α) :
    (uniqueList l).length = l.toFinset.card := by
  rw [← uniqueList_toFinset, List.toFinset_card_of_nodup (uniqueList_nodup l)]

theorem find?_filter_of_imp {α : Type} (p q : α → Bool) :
    ∀ l : List α, (∀ a, p a = true → q a = true) →
      (l.filter q).find? p = l.find? p
  | [], _ => rfl
  | x :: xs, h => by
      by_cases hq : q x = true
      · rw [List.filter_cons_of_pos hq]
        by_cases hp : p x = true
        · rw [List.find?_cons_of_pos _ hp, List.find?_cons_of_pos _ hp]
        · rw [List.find?_cons_of_neg _ hp, List.find?_cons_of_neg _ hp]
          exact find?_filter_of_imp p q xs h
      · have hp : ¬ p x = true := fun hpx => hq (h x hpx)
        rw [List.filter_cons_of_neg (by simpa using hq),
          List.find?_cons_of_neg _ hp]
        exact find?_filter_of_imp p q xs h

theorem filter_key_dedupByKeyAux {α κ : Type} [DecidableEq κ] (key : α → κ)
    (k : κ) :
    ∀ (seen : List κ) (l : List α),
      (dedupByKeyAux key seen l).filter (fun a => key a = k)
        = if k ∈ seen then [] else (l.find? fun a => key a = k).toList
  | seen, [] => by simp [dedupByKeyAux]
  | seen, x :: xs => by
      rw [dedupByKeyAux]
      by_cases hx : key x ∈ seen
      · rw [if_pos hx, filter_key_dedupByKeyAux key k seen xs]
        by_cases hk : k ∈ seen
        · rw [if_pos hk, if_pos hk]
        · have hne : ¬ key x = k := fun h => hk (h ▸ hx)
          rw [if_neg hk, if_neg hk,
            List.find?_cons_of_neg _ (by simpa using hne)]
      · rw [if_neg hx]
        by_cases he : key x = k
        · rw [List.filter_cons_of_pos (by simpa using he),
            filter_key_dedupByKeyAux key k (key x :: seen) xs,
            if_pos (he ▸ List.mem_cons_self (key x) seen)]
          have hk : ¬ k ∈ seen := fun h => hx (he ▸ h)
          rw [if_neg hk, List.find?_cons_of_pos _ (by simpa using he)]
          rfl
        · rw [List.filter_cons_of_neg (by simpa using he),
            filter_key_dedupByKeyAux key k (key x :: seen) xs,
            List.find?_cons_of_neg _ (by simpa using he)]
          by_cases hk : k ∈ seen
          · rw [if_pos (List.mem_cons_of_mem _ hk), if_pos hk]
          · have : ¬ k ∈ key x :: seen := by
              intro h
              rcases List.mem_cons.mp h with h | h
              · exact he h.symm
              · exact hk h
            rw [if_neg this, if_neg hk]

theorem filter_key_dedupByKey {α κ : Type} [DecidableEq κ] (key : α → κ)
    (k : κ) (l : List α) :
    (dedupByKey key l).filter (fun a => key a = k)
      = (l.find? fun a => key a = k).toList := by
  rw [dedupByKey, filter_key_dedupByKeyAux]
  simp

theorem table_filter_key {α β κ : Type} [DecidableEq κ] (key : α → κ)
    (proj : α → β) (keyB : β → κ) (hk : ∀ a, keyB (proj a) = key a)
    (l : List α) (k : κ) :
    ((dedupByKey key l).map proj).filter (fun b => keyB b = k)
      = ((l.find? fun a => key a = k).map proj).toList := by
  rw [List.filter_map]
  have hp : ((fun b => decide (keyB b = k)) ∘ proj)
      = fun a => decide (key a = k) := by
    funext a
    simp [hk a]
  rw [hp, filter_key_dedupByKey]
  cases l.find? fun a => key a = k <;> rfl

/-! ### Properties of the inner merge -/

theorem mem_innerMerge {α β κ : Type} [DecidableEq κ] {kl : α → κ}
    {kr : β → κ} {right : List β} :
    ∀ {left : List α} {q : α × β},
      q ∈ innerMerge kl kr right left →
        q.1 ∈ left ∧ q.2 ∈ right ∧ kr q.2 = kl q.1
  | [], _, h => absurd h (List.not_mem_nil _)
  | a0 :: as, q, h => by
      rw [innerMerge] at h
      rcases List.mem_append.mp h with h | h
      · rcases List.mem_map.mp h with ⟨b', hb', rfl⟩
        rcases List.mem_filter.mp hb' with ⟨hmem, hpred⟩
        exact ⟨List.mem_cons_self _ _, hmem, of_decide_eq_true hpred⟩
      · obtain ⟨ha, hb, hkr⟩ := mem_innerMerge h
        exact ⟨List.mem_cons_of_mem _ ha, hb, hkr⟩

theorem filter_key_eq_singleton {β κ : Type} [DecidableEq κ] (kr : β → κ) :
    ∀ (right : List β), (right.map kr).Nodup →
      ∀ {v : κ} {b : β}, b ∈ right → kr b = v →
        right.filter (fun y => kr y = v) = [b]
  | [], _, _, _, hb, _ => absurd hb (List.not_mem_nil _)
  | c :: rest, hnd, v, b, hb, hkb => by
      rw [List.map_cons] at hnd
      rcases List.pairwise_cons.mp hnd with ⟨hc, hrest⟩
      by_cases hcv : kr c = v
      · have hbc : b = c := by
          rcases List.mem_cons.mp hb with rfl | hb'
          · rfl
          · exact absurd (hkb.trans hcv.symm).symm
              (hc (kr b) (List.mem_map_of_mem kr hb'))
        subst hbc
        rw [List.filter_cons_of_pos (by simpa using hcv)]
        have hnil : rest.filter (fun y => kr y = v) = [] := by
          refine List.filter_eq_nil_iff.mpr ?_
          intro y hy hyv
          have h1 : kr y = v := of_decide_eq_true hyv
          exact hc (kr y) (List.mem_map_of_mem kr hy) (hcv.trans h1.symm)
        rw [hnil]
      · have hb' : b ∈ rest := by
          rcases List.mem_cons.mp hb with rfl | hb'
          · exact absurd hkb hcv
          · exact hb'
        rw [List.filter_cons_of_neg (by simpa using hcv)]
        exact filter_key_eq_singleton kr rest hrest hb' hkb

theorem innerMerge_map_fst {α β κ : Type} [DecidableEq κ] (kl : α → κ)
    (kr : β → κ) (right : List β) :
    ∀ left : List α,
      (∀ a ∈ left, ∃ b, right.filter (fun y => kr y = kl a) = [b]) →
      (innerMerge kl kr right left).map Prod.fst = left
  | [], _ => rfl
  | a :: as, h => by
      rw [innerMerge, List.map_append]
      obtain ⟨b, hb⟩ := h a (List.mem_cons_self a as)
      rw [hb, innerMerge_map_fst kl kr right as
        (fun x hx => h x (List.mem_cons_of_mem _ hx))]
      rfl

/-! ### Properties of `List.enumFrom` used for surrogate keys -/

theorem enumFrom_map_snd_apply {α β : Type} (f : α → β) :
    ∀ (n : ℕ) (l : List α),
      (List.enumFrom n l).map (fun p => f p.2) = l.map f
  | _, [] => rfl
  | n, x :: xs => by
      simp only [List.enumFrom, List.map_cons]
      rw [enumFrom_map_snd_apply f (n + 1) xs]

theorem enumFrom_map_fst_add_one {α : Type} :
    ∀ (n : ℕ) (l : List α),
      (List.enumFrom n l).map (fun p => p.1 + 1)
        = List.range' (n + 1) l.length
  | _, [] => rfl
  | n, x :: xs => by
      simp only [List.enumFrom, List.map_cons, List.length_cons,
        List.range'_succ]
      rw [enumFrom_map_fst_add_one (n + 1) xs]

theorem snd_mem_of_mem_enumFrom {α : Type} :
    ∀ {n : ℕ} {l : List α} {q : ℕ × α},
      q ∈ List.enumFrom n l → q.2 ∈ l
  | _, [], _, h => absurd h (List.not_mem_nil _)
  | _, x :: xs, q, h => by
      simp only [List.enumFrom] at h
      rcases List.mem_cons.mp h with rfl | h
      · exact List.mem_cons_self _ _
      · exact List.mem_cons_of_mem _ (snd_mem_of_mem_enumFrom h)

theorem pairwise_imp_of_mem {α : Type} {R S : α → α → Prop} :
    ∀ {l : List α},
      (∀ a b, a ∈ l → b ∈ l → R a b → S a b) → l.Pairwise R → l.Pairwise S
  | [], _, _ => List.Pairwise.nil
  | x :: xs, h, hp => by
      rcases List.pairwise_cons.mp hp with ⟨hx, hxs⟩
      refine List.Pairwise.cons ?_ (pairwise_imp_of_mem ?_ hxs)
      · intro b hb
        exact h x b (List.mem_cons_self _ _) (List.mem_cons_of_mem _ hb)
          (hx b hb)
      · intro a b ha hb
        exact h a b (List.mem_cons_of_mem _ ha) (List.mem_cons_of_mem _ hb)

theorem pairwise_and {α : Type} {R S : α → α → Prop} :
    ∀ {l : List α}, l.Pairwise R → l.Pairwise S →
      l.Pairwise fun a b => R a b ∧ S a b
  | [], _, _ => List.Pairwise.nil
  | _ :: _, hr, hs => by
      rcases List.pairwise_cons.mp hr with ⟨hrx, hrxs⟩
      rcases List.pairwise_cons.mp hs with ⟨hsx, hsxs⟩
      exact List.Pairwise.cons (fun b hb => ⟨hrx b hb, hsx b hb⟩)
        (pairwise_and hrxs hsxs)

/-! ### The categories and sub_categories tables -/

theorem categoriesTable_map_name (l : List RawRecord) :
    (categoriesTable l).map (·.categoryName)
      = uniqueList (l.map (·.category)) := by
  rw [categoriesTable, List.map_map]
  have h := enumFrom_map_snd_apply (fun s : String => s) 0
    (uniqueList (l.map (·.category)))
  simp only [List.map_id'] at h
  exact h

theorem categoriesTable_names_nodup (l : List RawRecord) :
    ((categoriesTable l).map (·.categoryName)).Nodup := by
  rw [categoriesTable_map_name]
  exact uniqueList_nodup _

theorem categoriesTable_map_id (l : List RawRecord) :
    (categoriesTable l).map (·.categoryID)
      = List.range' 1 (uniqueList (l.map (·.category))).length := by
  rw [categoriesTable, List.map_map]
  exact enumFrom_map_fst_add_one 0 _

theorem exists_categories_row (l : List RawRecord) {c : String}
    (hc : c ∈ l.map (·.category)) :
    ∃ row ∈ categoriesTable l, row.categoryName = c := by
  have h1 : c ∈ uniqueList (l.map (·.category)) := mem_uniqueList.mpr hc
  rw [← categoriesTable_map_name] at h1
  rcases List.mem_map.mp h1 with ⟨row, hrow, he⟩
  exact ⟨row, hrow, he⟩

theorem categories_filter_singleton (l : List RawRecord) {c : String}
    (hc : c ∈ l.map (·.category)) :
    ∃ row, (categoriesTable l).filter
      (fun b => b.categoryName = c) = [row] := by
  obtain ⟨row, hrow, hname⟩ := exists_categories_row l hc
  exact ⟨row, filter_key_eq_singleton (fun b => b.categoryName)
    (categoriesTable l) (categoriesTable_names_nodup l) hrow hname⟩

theorem subCategoryPairs_fst_mem (l : List RawRecord)
    {p : String × String} (hp : p ∈ subCategoryPairs l) :
    p.1 ∈ l.map (·.category) := by
  have h1 : p ∈ l.map (fun r => (r.category, r.subCategory)) :=
    mem_uniqueList.mp hp
  rcases List.mem_map.mp h1 with ⟨r, hr, rfl⟩
  exact List.mem_map_of_mem _ hr

theorem subCategories_merged_map_fst (l : List RawRecord) :
    (innerMerge Prod.fst (·.categoryName) (categoriesTable l)
        (subCategoryPairs l)).map Prod.fst = subCategoryPairs l := by
  refine innerMerge_map_fst _ _ _ _ ?_
  intro p hp
  exact categories_filter_singleton l (subCategoryPairs_fst_mem l hp)

theorem subCategoriesTable_map_name (l : List RawRecord) :
    (subCategoriesTable l).map (·.subCategoryName)
      = (subCategoryPairs l).map Prod.snd := by
  rw [subCategoriesTable, List.map_map]
  have h := enumFrom_map_snd_apply
    (fun q : (String × String) × CategoryRow => q.1.2) 0
    (innerMerge Prod.fst (·.categoryName) (categoriesTable l)
      (subCategoryPairs l))
  refine h.trans ?_
  have h2 := congrArg (List.map Prod.snd) (subCategories_merged_map_fst l)
  rw [List.map_map] at h2
  exact h2

theorem subCategoriesTable_map_id (l : List RawRecord) :
    (subCategoriesTable l).map (·.subCategoryID)
      = List.range' 1 (subCategoryPairs l).length := by
  rw [subCategoriesTable, List.map_map]
  have h := enumFrom_map_fst_add_one 0
    (innerMerge Prod.fst (·.categoryName) (categoriesTable l)
      (subCategoryPairs l))
  refine h.trans ?_
  have hlen := congrArg List.length (subCategories_merged_map_fst l)
  rw [List.length_map] at hlen
  rw [hlen]

theorem exists_subCategories_row (l : List RawRecord) {s : String}
    (hs : s ∈ (subCategoryPairs l).map Prod.snd) :
    ∃ row ∈ subCategoriesTable l, row.subCategoryName = s := by
  rw [← subCategoriesTable_map_name] at hs
  rcases List.mem_map.mp hs with ⟨row, hrow, he⟩
  exact ⟨row, hrow, he⟩

/-! ### The products table -/

theorem productsDedup_sub_mem (l : List RawRecord) {r : RawRecord}
    (hr : r ∈ productsDedup l) :
    r.subCategory ∈ (subCategoryPairs l).map Prod.snd := by
  have hl : r ∈ l := mem_of_mem_dedupByKey hr
  have h1 : (r.category, r.subCategory)
      ∈ l.map (fun x => (x.category, x.subCategory)) :=
    List.mem_map_of_mem _ hl
  have h2 : (r.category, r.subCategory) ∈ subCategoryPairs l :=
    mem_uniqueList.mpr h1
  exact List.mem_map_of_mem Prod.snd h2

theorem products_lookup_resolves (l : List RawRecord) {r : RawRecord}
    (hr : r ∈ productsDedup l) :
    ∃ row ∈ subCategoriesTable l, row.subCategoryName = r.subCategory :=
  exists_subCategories_row l (productsDedup_sub_mem l hr)

/-! ### The order_details group keys -/

theorem mem_orderDetailKeys {l : List RawRecord} {k : String × String} :
    k ∈ orderDetailKeys l ↔ k ∈ l.map fun r => (r.orderID, r.productID) := by
  rw [orderDetailKeys, (List.perm_insertionSort pairLE _).mem_iff]
  exact mem_uniqueList

theorem orderDetailKeys_nodup (l : List RawRecord) :
    (orderDetailKeys l).Nodup := by
  rw [orderDetailKeys]
  exact (List.perm_insertionSort pairLE _).nodup_iff.mpr (uniqueList_nodup _)

theorem orderDetailKeys_sorted (l : List RawRecord) :
    (orderDetailKeys l).Pairwise pairLE :=
  List.sorted_insertionSort pairLE _

theorem dedup_keys_nodup {α κ : Type} [DecidableEq κ] (key : α → κ)
    (l : List α) : ((dedupByKey key l).map key).Nodup :=
  List.pairwise_map.mpr (dedupByKey_pairwise_key key l)

theorem innerMerge_mem_of {α β κ : Type} [DecidableEq κ] (kl : α → κ)
    (kr : β → κ) (right : List β) :
    ∀ {left : List α} {a : α} {b : β},
      a ∈ left → b ∈ right → kr b = kl a →
      (a, b) ∈ innerMerge kl kr right left
  | [], _, _, ha, _, _ => absurd ha (List.not_mem_nil _)
  | a0 :: as, a, b, ha, hb, hk => by
      rw [innerMerge]
      rcases List.mem_cons.mp ha with rfl | ha'
      · refine List.mem_append.mpr (Or.inl ?_)
        exact List.mem_map_of_mem _
          (List.mem_filter.mpr ⟨hb, decide_eq_true hk⟩)
      · exact List.mem_append.mpr
          (Or.inr (innerMerge_mem_of kl kr right ha' hb hk))

/-! ### Claim theorems -/

/-- Claim C1: each natural-key table (customers keyed by CustomerID,
locations keyed by PostalCode, orders keyed by OrderID) contains, for
every key value, exactly the projection of the first input row in which
the key appears — one row when the key is observed, none otherwise
(first-wins deduplication). -/
theorem natural_key_first_wins_C1 (l : List RawRecord) (k : String) :
    (customersTable l).filter (fun row => row.customerID = k)
        = ((l.find? fun r => r.customerID = k).map fun r =>
            (⟨r.customerID, r.customerName, r.segment⟩ : CustomerRow)).toList
    ∧ (locationsTable l).filter (fun row => row.postalCode = k)
        = ((l.find? fun r => r.postalCode = k).map fun r =>
            (⟨r.postalCode, r.city, r.state, r.region⟩ : LocationRow)).toList
    ∧ (ordersTable l).filter (fun row => row.orderID = k)
        = ((l.find? fun r => r.orderID = k).map fun r =>
            (⟨r.orderID, r.orderDate, r.shipDate, r.shipMode, r.customerID,
              r.postalCode⟩ : OrderRow)).toList := by
  refine ⟨?_, ?_, ?_⟩
  · exact table_filter_key (fun r : RawRecord => r.customerID) _
      (fun row : CustomerRow => row.customerID) (fun _ => rfl) l k
  · exact table_filter_key (fun r : RawRecord => r.postalCode) _
      (fun row : LocationRow => row.postalCode) (fun _ => rfl) l k
  · exact table_filter_key (fun r : RawRecord => r.orderID) _
      (fun row : OrderRow => row.orderID) (fun _ => rfl) l k

/-- Claim C2: CategoryID and SubCategoryID are exactly the dense range
1..N (N = number of distinct category names, resp. distinct
(CategoryName, SubCategoryName) pairs), assigned by 1-based rank of first
appearance in the input sequence — the i-th table row carries ID i and
the i-th distinct name (resp. the sub-category name of the i-th distinct
pair) in first-appearance order; on the spec's example input the
assignments are Furniture:1, Office Supplies:2 and Chairs:1, Paper:2,
Tables:3. -/
theorem surrogate_keys_dense_C2 (l : List RawRecord) :
    ((categoriesTable l).map (·.categoryID)
        = List.range' 1 (l.map (·.category)).toFinset.card
      ∧ (categoriesTable l).map (·.categoryName)
        = uniqueList (l.map (·.category))
      ∧ (subCategoriesTable l).map (·.subCategoryID)
        = List.range' 1
            (l.map fun r => (r.category, r.subCategory)).toFinset.card
      ∧ (subCategoriesTable l).map (·.subCategoryName)
        = (uniqueList (l.map fun r =>
            (r.category, r.subCategory))).map Prod.snd)
    ∧ (categoriesTable hierarchyExampleInput).map
        (fun c => (c.categoryName, c.categoryID))
        = [("Furniture", 1), ("Office Supplies", 2)]
    ∧ (subCategoriesTable hierarchyExampleInput).map
        (fun s => (s.subCategoryName, s.subCategoryID))
        = [("Chairs", 1), ("Paper", 2), ("Tables", 3)] := by
  refine ⟨⟨?_, ?_, ?_, ?_⟩, ?_, ?_⟩
  · rw [categoriesTable_map_id, uniqueList_length]
  · exact categoriesTable_map_name l
  · rw [subCategoriesTable_map_id, subCategoryPairs, uniqueList_length]
  · exact subCategoriesTable_map_name l
  · decide
  · decide

/-- Claim C3: the order-details table has at most one row per
(OrderID, ProductID) pair; each row's Sales, Quantity and Profit are the
sums, and its Discount the arithmetic mean, of those measures over all
input rows with that pair; on the spec's example input (two rows for
("O1","P1") with Sales 10/20, Quantity 1/2, Discount 0.1/0.3, Profit 2/4)
the single output row is Sales 30, Quantity 3, Discount 0.2, Profit 6. -/
theorem order_details_aggregation_C3 (l : List RawRecord) :
    ((orderDetailsTable l).Pairwise fun a b =>
        (a.orderID, a.productID) ≠ (b.orderID, b.productID))
    ∧ (∀ row ∈ orderDetailsTable l,
        orderDetailGroup l (row.orderID, row.productID) ≠ []
        ∧ row.sales = ((orderDetailGroup l
            (row.orderID, row.productID)).map (·.sales)).sum
        ∧ row.quantity = ((orderDetailGroup l
            (row.orderID, row.productID)).map (·.quantity)).sum
        ∧ row.profit = ((orderDetailGroup l
            (row.orderID, row.productID)).map (·.profit)).sum
        ∧ row.discount = ((orderDetailGroup l
              (row.orderID, row.productID)).map (·.discount)).sum
            / ((orderDetailGroup l (row.orderID, row.productID)).length : ℚ))
    ∧ orderDetailsTable aggExampleInput
        = [⟨"O1", "P1", 30, 3, 0.2, 6⟩] := by
  refine ⟨?_, ?_, ?_⟩
  · rw [orderDetailsTable]
    refine List.pairwise_map.mpr ?_
    refine (orderDetailKeys_nodup l).imp ?_
    intro k1 k2 hne he
    exact hne he
  · intro row hrow
    rw [orderDetailsTable] at hrow
    rcases List.mem_map.mp hrow with ⟨k, hk, rfl⟩
    have hmem : k ∈ l.map fun r => (r.orderID, r.productID) :=
      mem_orderDetailKeys.mp hk
    rcases List.mem_map.mp hmem with ⟨r, hr, hkr⟩
    have hrg : r ∈ orderDetailGroup l k := by
      rw [orderDetailGroup]
      refine List.mem_filter.mpr ⟨hr, ?_⟩
      rw [← hkr]
      simp
    exact ⟨List.ne_nil_of_mem hrg, rfl, rfl, rfl, rfl⟩
  · have hkeys : orderDetailKeys aggExampleInput = [("O1", "P1")] := by
      decide
    have hg : orderDetailGroup aggExampleInput ("O1", "P1")
        = aggExampleInput := rfl
    rw [orderDetailsTable, hkeys]
    simp only [List.map_cons, List.map_nil, hg]
    norm_num [aggExampleInput, mkRec, List.sum_cons, List.sum_nil,
      List.map_cons, List.map_nil, List.length_cons,
      OrderDetailRow.mk.injEq]

/-- Claim C10: the rows of the order-details table are emitted in strictly
ascending lexicographic order of the composite key (OrderID, ProductID),
for every input — regardless of the first-appearance order of the pairs. -/
theorem order_details_sorted_C10 (l : List RawRecord) :
    ((orderDetailsTable l).map fun row =>
      (row.orderID, row.productID)).Pairwise pairLT := by
  have he : ((orderDetailsTable l).map fun row =>
      (row.orderID, row.productID)) = orderDetailKeys l := by
    rw [orderDetailsTable, List.map_map]
    exact List.map_id _
  rw [he]
  have hs : (orderDetailKeys l).Pairwise pairLE := orderDetailKeys_sorted l
  have hn : (orderDetailKeys l).Pairwise (fun a b => a ≠ b) :=
    orderDetailKeys_nodup l
  refine (pairwise_and hs hn).imp ?_
  rintro a b ⟨hle, hne⟩
  rcases hle with h | ⟨e, h2⟩
  · exact Or.inl h
  · refine Or.inr ⟨e, lt_of_le_of_ne h2 ?_⟩
    intro h22
    exact hne (Prod.ext e h22)

/-- Claim C4, counterexample: on an input whose sub-category name "S"
appears under the two categories "A" and "B", the products table contains
the ProductID "P1" twice — the products merge duplicates every product of
the ambiguous sub-category, so ProductID is not unique in the output. -/
theorem product_key_duplicated_C4_counterexample :
    (productsTable ambiguousHierarchyInput).countP
        (fun row => row.productID = "P1") = 2
    ∧ ¬ ((productsTable ambiguousHierarchyInput).map (·.productID)).Nodup := by
  decide

/-- Claim C4, amended: each CustomerID, PostalCode and OrderID value
appears exactly once in its respective output table for every input;
ProductID appears exactly once in the products table provided each
sub-category name occurs under a single category name in the input (on
ambiguous inputs the sub-category lookup join duplicates product rows). -/
theorem key_uniqueness_C4 (l : List RawRecord) :
    ((customersTable l).map (·.customerID)).Nodup
    ∧ ((locationsTable l).map (·.postalCode)).Nodup
    ∧ ((ordersTable l).map (·.orderID)).Nodup
    ∧ ((∀ r1 ∈ l, ∀ r2 ∈ l,
          r1.subCategory = r2.subCategory → r1.category = r2.category) →
        ((productsTable l).map (·.productID)).Nodup) := by
  refine ⟨?_, ?_, ?_, ?_⟩
  · rw [customersTable, List.map_map]
    exact dedup_keys_nodup _ l
  · rw [locationsTable, List.map_map]
    exact dedup_keys_nodup _ l
  · rw [ordersTable, List.map_map]
    exact dedup_keys_nodup _ l
  · intro hfun
    have hsubnodup : ((subCategoriesTable l).map (·.subCategoryName)).Nodup := by
      rw [subCategoriesTable_map_name]
      refine List.pairwise_map.mpr ?_
      have hp : (subCategoryPairs l).Pairwise (fun a b => a ≠ b) :=
        uniqueList_nodup _
      refine pairwise_imp_of_mem ?_ hp
      intro p q hpmem hqmem hne h2
      rcases List.mem_map.mp (mem_uniqueList.mp hpmem) with ⟨r1, hr1, rfl⟩
      rcases List.mem_map.mp (mem_uniqueList.mp hqmem) with ⟨r2, hr2, rfl⟩
      exact hne (Prod.ext (hfun r1 hr1 r2 hr2 h2) h2)
    have hsing : ∀ a ∈ productsDedup l, ∃ b,
        (subCategoriesTable l).filter
          (fun y => y.subCategoryName = a.subCategory) = [b] := by
      intro a ha
      obtain ⟨row, hrow, hname⟩ := products_lookup_resolves l ha
      exact ⟨row, filter_key_eq_singleton (fun y => y.subCategoryName)
        (subCategoriesTable l) hsubnodup hrow hname⟩
    have hfst := innerMerge_map_fst (fun r : RawRecord => r.subCategory)
      (fun y : SubCategoryRow => y.subCategoryName) (subCategoriesTable l)
      (productsDedup l) hsing
    have heq : (productsTable l).map (·.productID)
        = (productsDedup l).map (·.productID) := by
      rw [productsTable, List.map_map]
      have h2 := congrArg (List.map fun r : RawRecord => r.productID) hfst
      rw [List.map_map] at h2
      exact h2
    rw [heq]
    exact dedup_keys_nodup _ l

/-- Claim C5: referential integrity of the written output — every
sub-categories row's CategoryID is the key of some categories row, and
every products row's SubCategoryID is the key of some sub-categories row
of the same run. -/
theorem referential_integrity_C5 (l : List RawRecord) :
    (∀ srow ∈ subCategoriesTable l,
      ∃ crow ∈ categoriesTable l, crow.categoryID = srow.categoryID)
    ∧ (∀ prow ∈ productsTable l,
      ∃ srow ∈ subCategoriesTable l,
        srow.subCategoryID = prow.subCategoryID) := by
  constructor
  · intro srow hs
    rw [subCategoriesTable] at hs
    rcases List.mem_map.mp hs with ⟨q, hq, rfl⟩
    have hq2 := snd_mem_of_mem_enumFrom hq
    obtain ⟨_, hc, _⟩ := mem_innerMerge hq2
    exact ⟨q.2.2, hc, rfl⟩
  · intro prow hp
    rw [productsTable] at hp
    rcases List.mem_map.mp hp with ⟨q, hq, rfl⟩
    obtain ⟨_, hs, _⟩ := mem_innerMerge hq
    exact ⟨q.2, hs, rfl⟩

/-- Witness for C5 at a concrete input: the sub-categories row
(SubCategoryID 1, "Chairs", CategoryID 1) of the example run references
an existing categories row. -/
theorem referential_integrity_C5_witness :
    ∃ crow ∈ categoriesTable hierarchyExampleInput,
      crow.categoryID
        = (⟨1, "Chairs", 1⟩ : SubCategoryRow).categoryID :=
  (referential_integrity_C5 hierarchyExampleInput).1
    ⟨1, "Chairs", 1⟩ (by decide)

/-- Claim C6: for every input, the sub-category-to-category and
product-to-sub-category lookups always resolve (both sides of each merge
derive from the same input snapshot), and consequently no record is ever
silently dropped by the inner joins — every distinct pair reaches the
sub-categories table and every deduplicated product reaches the products
table.  The unresolved-reference error path of the claim is therefore
unreachable. -/
theorem lookups_resolve_C6 (l : List RawRecord) :
    (∀ p ∈ subCategoryPairs l,
      ∃ crow ∈ categoriesTable l, crow.categoryName = p.1)
    ∧ (∀ r ∈ productsDedup l,
      ∃ srow ∈ subCategoriesTable l, srow.subCategoryName = r.subCategory)
    ∧ (∀ p ∈ subCategoryPairs l,
      ∃ srow ∈ subCategoriesTable l, srow.subCategoryName = p.2)
    ∧ (∀ r ∈ productsDedup l,
      ∃ prow ∈ productsTable l, prow.productID = r.productID) := by
  refine ⟨?_, ?_, ?_, ?_⟩
  · intro p hp
    exact exists_categories_row l (subCategoryPairs_fst_mem l hp)
  · intro r hr
    exact products_lookup_resolves l hr
  · intro p hp
    exact exists_subCategories_row l (List.mem_map_of_mem Prod.snd hp)
  · intro r hr
    obtain ⟨srow, hs, hname⟩ := products_lookup_resolves l hr
    have hmem : (r, srow) ∈ innerMerge (·.subCategory) (·.subCategoryName)
        (subCategoriesTable l) (productsDedup l) :=
      innerMerge_mem_of _ _ _ hr hs hname
    refine ⟨⟨r.productID, r.productName, srow.subCategoryID⟩, ?_, rfl⟩
    rw [productsTable]
    exact List.mem_map_of_mem _ hmem

/-- Witness for C6 at a concrete input: the pair ("Furniture", "Chairs")
of the example run resolves to a categories row named "Furniture". -/
theorem lookups_resolve_C6_witness :
    ∃ crow ∈ categoriesTable hierarchyExampleInput,
      crow.categoryName = ("Furniture", "Chairs").1 :=
  (lookups_resolve_C6 hierarchyExampleInput).1
    ("Furniture", "Chairs") (by decide)

/-- Claim C7: when loading the input fails (file not found or any read
error), the run returns before any table is computed or written — the
output is `none`, so none of the seven tables is created or modified. -/
theorem input_error_no_output_C7 (e : String) :
    runNormalize (Except.error e) = none := rfl

/-- Claim C8: the pipeline is deterministic and idempotent — two runs on
byte-identical input (equal loaded snapshots) produce identical output
tables: the same surrogate keys and the same rows in the same order. -/
theorem deterministic_idempotent_C8
    (i1 i2 : Except String (List RawRecord)) (h : i1 = i2) :
    runNormalize i1 = runNormalize i2 := by
  rw [h]

/-- Witness for C8: two runs on the empty snapshot agree. -/
theorem deterministic_idempotent_C8_witness :
    runNormalize (Except.ok ([] : List RawRecord))
      = runNormalize (Except.ok ([] : List RawRecord)) :=
  deterministic_idempotent_C8 (Except.ok []) (Except.ok []) rfl

/-- Claim C9: an empty input (header only, zero data rows) is not an
error — the run completes and produces all seven output tables, each with
zero data rows. -/
theorem empty_input_C9 :
    runNormalize (Except.ok ([] : List RawRecord))
      = some ⟨[], [], [], [], [], [], []⟩ := rfl

/-- Witness for C3 at the spec's example input: the aggregated row for
("O1", "P1") has a nonempty group of source line items. -/
theorem order_details_aggregation_C3_witness :
    orderDetailGroup aggExampleInput ("O1", "P1") ≠ [] := by
  have h := (order_details_aggregation_C3 aggExampleInput).2.1
    ⟨"O1", "P1", 30, 3, 0.2, 6⟩ (by rw [(order_details_aggregation_C3 aggExampleInput).2.2]; exact List.mem_singleton.mpr rfl)
  exact h.1

/-- Witness for C4 at a concrete input whose sub-category names are
unambiguous: all four key columns are duplicate-free. -/
theorem key_uniqueness_C4_witness :
    ((productsTable hierarchyExampleInput).map (·.productID)).Nodup :=
  (key_uniqueness_C4 hierarchyExampleInput).2.2.2 (by decide)
